import Mathlib

/-!
Shallow embedding of src/kremlib/kremstr.c.

A C string buffer is modelled as a `List Char` of the bytes of the
allocation; a valid terminated string is a buffer that contains the NUL
terminator somewhere. `content s` is the character sequence before the
first terminator (the string value the buffer denotes). `cstrlen` is the
C `strlen` scan loop; `cstrcat` is the C `strcat` write into a
destination buffer; `FStar_String_strcat` builds the zeroed `calloc`
buffer of size `strlen s0 + strlen s1 + 1` and performs the two `strcat`
calls exactly as the source does. Output of `printf("%s", s)` is
modelled by `putChars`, emitting characters one by one until the
terminator.
-/

/-- The NUL terminator byte. -/
def NUL : Char := Char.ofNat 0

/-- The character sequence of a buffer before its first terminator. -/
def content (s : List Char) : List Char := s.takeWhile (fun c => c != NUL)

/-- A valid terminated string: the buffer contains a terminator. -/
def validCStr (s : List Char) : Prop := NUL ∈ s

instance (s : List Char) : Decidable (validCStr s) := by
  unfold validCStr; infer_instance

/-- C `strlen`: scan for the terminator, counting characters. -/
def cstrlen : List Char → Nat
  | [] => 0
  | c :: s => if c = NUL then 0 else cstrlen s + 1

/-- Line 14: `Prims_nat FStar_String_strlen(Prims_string s) { return strlen(s); }` -/
def FStar_String_strlen (s : List Char) : Nat := cstrlen s

/-- C `strcat(dest, src)`: the bytes before the terminator of `dest` are
kept, the characters of `src` and a terminator are written starting at
`strlen(dest)`, and bytes of `dest` past the written terminator are
untouched. -/
def cstrcat (dest src : List Char) : List Char :=
  dest.take (cstrlen dest) ++ src.take (cstrlen src)
    ++ NUL :: dest.drop (cstrlen dest + cstrlen src + 1)

/-- Lines 18-23: allocate a zeroed buffer of `strlen(s0)+strlen(s1)+1`
bytes with `calloc`, then `strcat` in `s0` and then `s1`. -/
def FStar_String_strcat (s0 s1 : List Char) : List Char :=
  cstrcat (cstrcat (List.replicate (cstrlen s0 + cstrlen s1 + 1) NUL) s0) s1

/-- Lines 25-27: `Prims_strcat` forwards to `FStar_String_strcat`. -/
def Prims_strcat (s0 s1 : List Char) : List Char := FStar_String_strcat s0 s1

/-- Emission of characters to an output stream by `printf("%s", s)`:
characters are appended to the stream in order until the terminator. -/
def putChars (out : List Char) : List Char → List Char
  | [] => out
  | c :: s => if c = NUL then out else putChars (out ++ [c]) s

/-- Lines 29-31: `printf("%s", s)`, returning the new output stream and
the (void) result. -/
def FStar_HyperStack_IO_print_string (out s : List Char) : List Char × Unit :=
  (putChars out s, ())

/-! ### Basic lemmas about `content` and `cstrlen` -/

theorem content_nil : content [] = [] := rfl

theorem content_cons_nul (s : List Char) : content (NUL :: s) = [] := by
  simp [content, List.takeWhile]

theorem content_cons_of_ne {c : Char} (h : c ≠ NUL) (s : List Char) :
    content (c :: s) = c :: content s := by
  have hb : (c != NUL) = true := by simp [h]
  simp [content, List.takeWhile, hb]

theorem content_replicate (n : Nat) : content (List.replicate n NUL) = [] := by
  cases n with
  | zero => rfl
  | succ n => rw [List.replicate_succ]; exact content_cons_nul _

theorem cstrlen_eq_content (s : List Char) : cstrlen s = (content s).length := by
  induction s with
  | nil => rfl
  | cons c s ih =>
    by_cases h : c = NUL
    · subst h; simp [cstrlen, content_cons_nul]
    · simp [cstrlen, h, content_cons_of_ne h, ih]

theorem take_cstrlen (s : List Char) : s.take (cstrlen s) = content s := by
  induction s with
  | nil => rfl
  | cons c s ih =>
    by_cases h : c = NUL
    · subst h; simp [cstrlen, content_cons_nul]
    · simp [cstrlen, h, content_cons_of_ne h, ih]

theorem mem_content_ne {s : List Char} : ∀ c ∈ content s, c ≠ NUL := by
  intro c hc
  have h := List.mem_takeWhile_imp hc
  simpa using h

theorem content_append_all {a : List Char} (h : ∀ c ∈ a, c ≠ NUL) (l : List Char) :
    content (a ++ l) = a ++ content l := by
  induction a with
  | nil => simp
  | cons c a ih =>
    have hc : c ≠ NUL := h c (by simp)
    rw [List.cons_append, content_cons_of_ne hc, ih (fun x hx => h x (by simp [hx])),
      List.cons_append]

theorem content_append_nul {a : List Char} (h : ∀ c ∈ a, c ≠ NUL) (b : List Char) :
    content (a ++ NUL :: b) = a := by
  rw [content_append_all h, content_cons_nul, List.append_nil]

theorem cstrlen_replicate (n : Nat) : cstrlen (List.replicate n NUL) = 0 := by
  rw [cstrlen_eq_content, content_replicate]; rfl

theorem drop_replicate_nul (k : Nat) : ∀ n : Nat,
    (List.replicate n NUL).drop k = List.replicate (n - k) NUL := by
  induction k with
  | zero => intro n; simp
  | succ k ih =>
    intro n
    cases n with
    | zero => simp
    | succ n => rw [List.replicate_succ, List.drop_succ_cons, ih, Nat.succ_sub_succ]

theorem cstrlen_append_nul {a : List Char} (h : ∀ c ∈ a, c ≠ NUL) (b : List Char) :
    cstrlen (a ++ NUL :: b) = a.length := by
  rw [cstrlen_eq_content, content_append_nul h]

/-- The central computation: the buffer returned by the embedded
`FStar_String_strcat` is the characters of `s0`, the characters of `s1`
and one terminator, in that order. -/
theorem strcat_eq (s0 s1 : List Char) :
    FStar_String_strcat s0 s1 = content s0 ++ content s1 ++ [NUL] := by
  have h0 : ∀ c ∈ content s0, c ≠ NUL := mem_content_ne
  have hinner : cstrcat (List.replicate (cstrlen s0 + cstrlen s1 + 1) NUL) s0
      = content s0 ++ NUL :: List.replicate (cstrlen s1) NUL := by
    unfold cstrcat
    rw [cstrlen_replicate, take_cstrlen, drop_replicate_nul]
    have harith : cstrlen s0 + cstrlen s1 + 1 - (0 + cstrlen s0 + 1) = cstrlen s1 := by
      omega
    rw [harith]
    simp
  unfold FStar_String_strcat
  rw [hinner]
  unfold cstrcat
  rw [take_cstrlen, take_cstrlen, content_append_nul h0, cstrlen_append_nul h0]
  have hdrop : (content s0 ++ NUL :: List.replicate (cstrlen s1) NUL).drop
      ((content s0).length + cstrlen s1 + 1) = [] := by
    apply List.drop_eq_nil_of_le
    simp
    omega
  rw [hdrop]

theorem content_strcat (s0 s1 : List Char) :
    content (FStar_String_strcat s0 s1) = content s0 ++ content s1 := by
  rw [strcat_eq]
  have h : ∀ c ∈ content s0 ++ content s1, c ≠ NUL := by
    intro c hc
    rcases List.mem_append.mp hc with hm | hm
    · exact mem_content_ne c hm
    · exact mem_content_ne c hm
  exact content_append_nul h []

theorem strcat_length (s0 s1 : List Char) :
    (FStar_String_strcat s0 s1).length = cstrlen s0 + cstrlen s1 + 1 := by
  rw [strcat_eq]
  simp [← cstrlen_eq_content]
  omega

theorem putChars_eq (s : List Char) : ∀ out, putChars out s = out ++ content s := by
  induction s with
  | nil => intro out; simp [putChars, content_nil]
  | cons c s ih =>
    intro out
    by_cases h : c = NUL
    · subst h; simp [putChars, content_cons_nul]
    · simp [putChars, h, ih, content_cons_of_ne h]

/-! ### Claim theorems -/

/-- Claim C1: for valid terminated strings s0 and s1, the buffer returned
by FStar_String_strcat holds the characters of s0 followed by the
characters of s1, in that order and with no truncation, and the
allocated buffer has size exactly strlen s0 + strlen s1 + 1 (both
contents plus the terminator). -/
theorem C1_strcat_concatenation (s0 s1 : List Char)
    (h0 : validCStr s0) (h1 : validCStr s1) :
    content (FStar_String_strcat s0 s1) = content s0 ++ content s1 ∧
    (FStar_String_strcat s0 s1).length
      = FStar_String_strlen s0 + FStar_String_strlen s1 + 1 :=
  ⟨content_strcat s0 s1, strcat_length s0 s1⟩

/-- Witness for C1, concatenating the buffers of "a" and "bc". -/
theorem C1_witness :
    validCStr ['a', NUL] ∧ validCStr ['b', 'c', NUL] ∧
      (content (FStar_String_strcat ['a', NUL] ['b', 'c', NUL])
          = content ['a', NUL] ++ content ['b', 'c', NUL] ∧
        (FStar_String_strcat ['a', NUL] ['b', 'c', NUL]).length
          = FStar_String_strlen ['a', NUL] + FStar_String_strlen ['b', 'c', NUL] + 1) :=
  ⟨by decide, by decide, C1_strcat_concatenation _ _ (by decide) (by decide)⟩

/-- Claim C2: for a valid terminated string, strlen returns the number of
characters preceding the terminator (the embedded function is pure, so
there is no side effect to observe), and on the empty string the result
is 0. -/
theorem C2_strlen_counts_content (s : List Char) (h : validCStr s) :
    FStar_String_strlen s = (content s).length ∧ FStar_String_strlen [NUL] = 0 :=
  ⟨cstrlen_eq_content s, rfl⟩

/-- Witness for C2 on the buffer of "hello". -/
theorem C2_witness :
    validCStr ['h', 'e', 'l', 'l', 'o', NUL] ∧
      (FStar_String_strlen ['h', 'e', 'l', 'l', 'o', NUL]
          = (content ['h', 'e', 'l', 'l', 'o', NUL]).length ∧
        FStar_String_strlen [NUL] = 0) :=
  ⟨by decide, C2_strlen_counts_content _ (by decide)⟩

/-- Claim C3: for valid terminated strings a and b, the length of the
concatenation is the sum of the lengths. -/
theorem C3_strlen_strcat (a b : List Char) (ha : validCStr a) (hb : validCStr b) :
    FStar_String_strlen (FStar_String_strcat a b)
      = FStar_String_strlen a + FStar_String_strlen b := by
  show cstrlen _ = cstrlen a + cstrlen b
  rw [cstrlen_eq_content, content_strcat, List.length_append,
    ← cstrlen_eq_content, ← cstrlen_eq_content]

/-- Witness for C3 on the buffers of "ab" and "c". -/
theorem C3_witness :
    validCStr ['a', 'b', NUL] ∧ validCStr ['c', NUL] ∧
      FStar_String_strlen (FStar_String_strcat ['a', 'b', NUL] ['c', NUL])
        = FStar_String_strlen ['a', 'b', NUL] + FStar_String_strlen ['c', NUL] :=
  ⟨by decide, by decide, C3_strlen_strcat _ _ (by decide) (by decide)⟩

/-- Claim C4: the empty string (the buffer holding only a terminator) is
a left and right identity of concatenation, up to equality of string
contents. -/
theorem C4_strcat_empty_identity (a : List Char) (ha : validCStr a) :
    content (FStar_String_strcat a [NUL]) = content a ∧
    content (FStar_String_strcat [NUL] a) = content a := by
  constructor
  · rw [content_strcat, content_cons_nul, List.append_nil]
  · rw [content_strcat, content_cons_nul, List.nil_append]

/-- Witness for C4 on the buffer of "xy". -/
theorem C4_witness :
    validCStr ['x', 'y', NUL] ∧
      (content (FStar_String_strcat ['x', 'y', NUL] [NUL]) = content ['x', 'y', NUL] ∧
        content (FStar_String_strcat [NUL] ['x', 'y', NUL]) = content ['x', 'y', NUL]) :=
  ⟨by decide, C4_strcat_empty_identity _ (by decide)⟩

/-- Claim C5: concatenation is associative up to equality of string
contents. -/
theorem C5_strcat_assoc (a b c : List Char)
    (ha : validCStr a) (hb : validCStr b) (hc : validCStr c) :
    content (FStar_String_strcat (FStar_String_strcat a b) c)
      = content (FStar_String_strcat a (FStar_String_strcat b c)) := by
  rw [content_strcat, content_strcat, content_strcat, content_strcat,
    List.append_assoc]

/-- Witness for C5 on the buffers of "a", "b", "c". -/
theorem C5_witness :
    validCStr ['a', NUL] ∧ validCStr ['b', NUL] ∧ validCStr ['c', NUL] ∧
      content (FStar_String_strcat (FStar_String_strcat ['a', NUL] ['b', NUL]) ['c', NUL])
        = content (FStar_String_strcat ['a', NUL] (FStar_String_strcat ['b', NUL] ['c', NUL])) :=
  ⟨by decide, by decide, by decide, C5_strcat_assoc _ _ _ (by decide) (by decide) (by decide)⟩

/-- Claim C6: Prims_strcat is defined as a direct forward to
FStar_String_strcat, preserving argument order; the two functions are
extensionally equal. -/
theorem C6_prims_strcat_forwards (s0 s1 : List Char) :
    Prims_strcat s0 s1 = FStar_String_strcat s0 s1 := rfl

/-- Claim C7: printing a valid terminated string appends exactly its
characters, in order, to the output stream, with nothing extra, and
returns the unit value. -/
theorem C7_print_string_exact (out s : List Char) (h : validCStr s) :
    (FStar_HyperStack_IO_print_string out s).1 = out ++ content s ∧
    (FStar_HyperStack_IO_print_string out s).2 = () :=
  ⟨putChars_eq s out, rfl⟩

/-- Witness for C7, printing the buffer of "abc" to an empty stream. -/
theorem C7_witness :
    validCStr ['a', 'b', 'c', NUL] ∧
      ((FStar_HyperStack_IO_print_string [] ['a', 'b', 'c', NUL]).1
          = [] ++ content ['a', 'b', 'c', NUL] ∧
        (FStar_HyperStack_IO_print_string [] ['a', 'b', 'c', NUL]).2 = ()) :=
  ⟨by decide, C7_print_string_exact _ _ (by decide)⟩

/-- Claim C8: the concatenation operation has no error branch and no
error result: on every pair of inputs, valid or not, it unconditionally
returns the concatenation buffer, never an error value and never an
empty allocation. Allocation failure itself lies outside the embedding
and is undefined behavior in the C source, exactly as unsignaled. -/
theorem C8_strcat_no_error_branch (s0 s1 : List Char) :
    FStar_String_strcat s0 s1 = content s0 ++ content s1 ++ [NUL] ∧
    FStar_String_strcat s0 s1 ≠ [] := by
  refine ⟨strcat_eq s0 s1, ?_⟩
  rw [strcat_eq]
  simp

/-- Claim C9: the length count is a non-negative integer for inputs of
any length. -/
theorem C9_strlen_nonneg (s : List Char) : 0 ≤ (FStar_String_strlen s : Int) := by
  exact_mod_cast Nat.zero_le (FStar_String_strlen s)

/-- Claim C10: the buffer returned by concatenation is itself a valid
terminated string (the zero-initialized allocation guarantees a
terminator follows the copied contents), hence a valid input to strlen,
strcat and print. -/
theorem C10_strcat_valid (s0 s1 : List Char)
    (h0 : validCStr s0) (h1 : validCStr s1) :
    validCStr (FStar_String_strcat s0 s1) := by
  unfold validCStr
  rw [strcat_eq]
  simp

/-- Witness for C10 on the buffers of "a" and "b". -/
theorem C10_witness :
    validCStr ['a', NUL] ∧ validCStr ['b', NUL] ∧
      validCStr (FStar_String_strcat ['a', NUL] ['b', NUL]) :=
  ⟨by decide, by decide, C10_strcat_valid _ _ (by decide) (by decide)⟩
